import Mathlib

/-!
Shallow embedding of the graph random-walk sampler of `embiggen`
(`embiggen/graph/graph.py`): graph index construction (node/edge id maps,
adjacency, line-graph successor lists, alias tables for first- and
second-order transitions) and the walk generator, together with theorems
checking the natural-language specification against this embedding.

Machine floats of the source are embedded as exact rationals; the
dictionary `_edges` (insertion-ordered, with values being consecutive
insertion counters) is embedded as its insertion-ordered key list, so that
the edge id of a pair is its position in that list and `_edges_indices`
coincides with the list itself.
-/

namespace Embiggen

attribute [local semireducible] Rat.mul Rat.inv Rat.add Rat.sub

/-- Position of the first occurrence of `a` in `l` (the id an
insertion-ordered dictionary with consecutive counter values associates
to the key `a`); meaningful only when `a ∈ l`. -/
def idxOfD {α : Type} [DecidableEq α] : List α → α → Nat
  | [], _ => 0
  | x :: rest, a => if x = a then 0 else idxOfD rest a + 1

/-- Alias-method auxiliary structure: `J` is the alias index vector
(`prob_index`), `q` the probability vector (`prob_value`). -/
structure AliasTable where
  J : List Nat
  q : List ℚ
  deriving DecidableEq, Repr, Inhabited

/-- Modelled from the spec: the file `embiggen/graph/alias_method.py`
(imported by `graph.py`) is not available, so Walker's alias-method setup
is reconstructed from §4.1 of the specification: normalize the weights to
sum to 1 over `n` bins and scale each by `n`. -/
def aliasScaled (weights : List ℚ) : List ℚ :=
  weights.map fun w => (weights.length : ℚ) * (w / weights.sum)

/-- Modelled from the spec: the small/large queue loop of Walker's alias
method (§4.1).  Pop one small and one large entry; set
`prob_index[small] = large`, keep `prob_value[small]`; decrease the large
entry's remaining mass by `1 - prob_value[small]` and reclassify it.  The
fuel argument equals the combined queue size, which decreases by exactly
one per iteration, so fuel never runs out before a queue empties. -/
def aliasLoop : Nat → List Nat → List Nat → List Nat → List ℚ →
    List Nat × List ℚ
  | 0, _, _, J, q => (J, q)
  | fuel + 1, s :: smallRest, l :: largeRest, J, q =>
    let J1 := J.set s l
    let ql := q.getD l 0 - (1 - q.getD s 0)
    let q1 := q.set l ql
    if ql < 1 then
      aliasLoop fuel (l :: smallRest) largeRest J1 q1
    else
      aliasLoop fuel smallRest (l :: largeRest) J1 q1
  | _ + 1, _, _, J, q => (J, q)

/-- Modelled from the spec: `alias_setup` of the missing
`embiggen/graph/alias_method.py`, per §4.1 (Walker's alias method).
The spec's §8 chain scenario requires construction to succeed for nodes
with no outgoing edges, so an empty weight vector yields empty tables
(failure is deferred to drawing). -/
def alias_setup (weights : List ℚ) : AliasTable :=
  let n := weights.length
  let scaled := aliasScaled weights
  let small := (List.range n).filter fun i => decide (scaled.getD i 0 < 1)
  let large := (List.range n).filter fun i => !decide (scaled.getD i 0 < 1)
  let r := aliasLoop (small.length + large.length) small large
    (List.replicate n 0) scaled
  ⟨r.1, r.2⟩

/-- Modelled from the spec: `alias_draw` of the missing
`embiggen/graph/alias_method.py`, per §4.1: pick a bin `kk` from the
random integer `i`, return `kk` if the random real `r` is below
`prob_value[kk]`, else `prob_index[kk]`.  Drawing from an empty table
fails (there is no valid bin). -/
def alias_draw (t : AliasTable) (i : Nat) (r : ℚ) : Option Nat :=
  if t.J.length = 0 then none
  else
    let kk := i % t.J.length
    some (if r < t.q.getD kk 0 then kk else t.J.getD kk 0)

/-- Adjacency-building state of `Graph.__init__` (lines 93–122):
`edgeList` is the insertion-ordered key list of the `_edges` dictionary
(the edge id of a pair is its position), `nbrs` is `nodes_neighbours` and
`wts` is `neighbours_weights`. -/
structure Adj where
  edgeList : List (Nat × Nat)
  nbrs : List (List Nat)
  wts : List (List ℚ)
  deriving DecidableEq, Repr, Inhabited

/-- The empty state: no edges, one empty neighbour and weight list per
node (lines 97–104). -/
def Adj.init (n : Nat) : Adj :=
  ⟨[], List.replicate n [], List.replicate n []⟩

/-- Unconditionally record edge `(src, dst)`: append the pair to the edge
map, append `dst` to `src`'s neighbours and `w` to `src`'s weights. -/
def insertEdge (st : Adj) (src dst : Nat) (w : ℚ) : Adj :=
  ⟨st.edgeList ++ [(src, dst)],
   st.nbrs.set src ((st.nbrs.getD src []) ++ [dst]),
   st.wts.set src ((st.wts.getD src []) ++ [w])⟩

/-- One iteration of the edge loop (lines 110–122): insert the forward
edge if absent; then, if the input edge is undirected and the reverse is
absent from the state updated by the forward insertion, insert the
reverse with the same weight. -/
def addEdge (st : Adj) (src dst : Nat) (w : ℚ) (dir : Bool) : Adj :=
  let st1 := if (src, dst) ∈ st.edgeList then st else insertEdge st src dst w
  if dir then st1
  else if (dst, src) ∈ st1.edgeList then st1
  else insertEdge st1 dst src w

/-- The loop step applied to one zipped input record. -/
def adjStep (st : Adj) (item : (Nat × Nat) × (ℚ × Bool)) : Adj :=
  addEdge st item.1.1 item.1.2 item.2.1 item.2.2

/-- The full edge loop over the (id-resolved) input lists. -/
def buildAdj (n : Nat) (edges : List (Nat × Nat)) (weights : List ℚ)
    (directed : List Bool) : Adj :=
  (edges.zip (weights.zip directed)).foldl adjStep (Adj.init n)

/-- Line-graph successor list of edge `(src, dst)` (lines 132–146): the
edge ids of `(dst, neigh)` for every neighbour `neigh` of `dst`, in
adjacency order. -/
def edgeSuccessors (st : Adj) (p : Nat × Nat) : List Nat :=
  (st.nbrs.getD p.2 []).map fun neigh => idxOfD st.edgeList (p.2, neigh)

/-- Unnormalized second-order weight vector for edge `(src, dst)` as the
source computes it (lines 174–186): iterate over the successor edge ids
zipped with `dst`'s weights; an entry is kept unchanged when
`(neighbour, src)` is in the edge map, multiplied by `return_weight` when
`neighbour == src`, and multiplied by `explore_weight` otherwise — where
`neighbour` is the successor EDGE id, exactly as in the source. -/
def edgeRawWeights (st : Adj) (rw ew : ℚ) (p : Nat × Nat) : List ℚ :=
  ((edgeSuccessors st p).zip (st.wts.getD p.2 [])).map
    fun nw =>
      if (nw.1, p.1) ∈ st.edgeList then nw.2
      else if nw.1 = p.1 then nw.2 * rw
      else nw.2 * ew

/-- `probs / total` of line 188: divide every entry by the vector sum. -/
def normalize (l : List ℚ) : List ℚ := l.map fun x => x / l.sum

/-- The constructed graph index: the edge key list (`_edges` and
`_edges_indices`), the adjacency lists, and the per-node/per-edge alias
structures (`_nodes_alias`, `_edges_alias`). -/
structure Graph where
  edgeList : List (Nat × Nat)
  nbrs : List (List Nat)
  wts : List (List ℚ)
  nodesAlias : List (List Nat × AliasTable)
  edgesAlias : List (List Nat × AliasTable)
  deriving DecidableEq, Repr, Inhabited

/-- The adjacency part of a constructed graph. -/
def Graph.adj (g : Graph) : Adj := ⟨g.edgeList, g.nbrs, g.wts⟩

/-- `Graph.__init__` after node-name resolution: build the adjacency,
the per-node alias tables from the raw neighbour weights (lines 157–162)
and the per-edge alias tables from the normalized second-order weights
(lines 173–189). -/
def buildFromIds (n : Nat) (edges : List (Nat × Nat)) (weights : List ℚ)
    (directed : List Bool) (rw ew : ℚ) : Graph :=
  let st := buildAdj n edges weights directed
  ⟨st.edgeList, st.nbrs, st.wts,
   (st.nbrs.zip st.wts).map fun nw => (nw.1, alias_setup nw.2),
   st.edgeList.map fun p =>
     (edgeSuccessors st p,
      alias_setup (normalize (edgeRawWeights st rw ew p)))⟩

/-- The `nodes_mapping` dictionary (lines 81–83): node name to id; a
duplicated name keeps the last index, as repeated dictionary assignment
does. -/
def nodesMapping : List String → String → Option Nat
  | [], _ => none
  | x :: rest, name =>
    match nodesMapping rest name with
    | some j => some (j + 1)
    | none => if x = name then some 0 else none

/-- Resolve every input edge's endpoint names to node ids; an unknown
name fails the construction (the dictionary lookup of line 111 raises). -/
def resolveEdges (nodes : List String) :
    List (String × String) → Option (List (Nat × Nat))
  | [] => some []
  | p :: rest => do
    let u ← nodesMapping nodes p.1
    let v ← nodesMapping nodes p.2
    let es ← resolveEdges nodes rest
    pure ((u, v) :: es)

/-- Full construction from node names and named edges
(`Graph.__init__`). -/
def Graph.build (nodes : List String) (edges : List (String × String))
    (weights : List ℚ) (directed : List Bool) (rw ew : ℚ) : Option Graph :=
  (resolveEdges nodes edges).map fun es =>
    buildFromIds nodes.length es weights directed rw ew

/-- `nodes_number` (line 199): the length of `_nodes_alias`. -/
def nodes_number (g : Graph) : Nat := g.nodesAlias.length

/-- `get_edge_id` (line 215): dictionary lookup, failing when the ordered
pair is absent; on success the id is the pair's insertion position. -/
def get_edge_id (g : Graph) (src dst : Nat) : Option Nat :=
  if (src, dst) ∈ g.edgeList then some (idxOfD g.edgeList (src, dst))
  else none

/-- `get_edge_destination` (line 229): second component of
`_edges_indices[edge]`. -/
def get_edge_destination (g : Graph) (e : Nat) : Option Nat :=
  (g.edgeList.get? e).map Prod.snd

/-- `has_edge` (line 243): membership in the edge map. -/
def has_edge (g : Graph) (p : Nat × Nat) : Bool :=
  decide (p ∈ g.edgeList)

/-- `extract_random_node_neighbour` (lines 259–260): look up the node's
alias entry, draw, and index the neighbour list.  The draw value is the
pair (random bin source, random real). -/
def extract_random_node_neighbour (g : Graph) (v : Nat) (d : Nat × ℚ) :
    Option Nat := do
  let entry ← g.nodesAlias.get? v
  let k ← alias_draw entry.2 d.1 d.2
  entry.1.get? k

/-- `extract_random_edge_neighbour` (lines 276–277). -/
def extract_random_edge_neighbour (g : Graph) (e : Nat) (d : Nat × ℚ) :
    Option Nat := do
  let entry ← g.edgesAlias.get? e
  let k ← alias_draw entry.2 d.1 d.2
  entry.1.get? k

/-- Stored weight of edge `(u, v)`: the weight parallel to `v`'s position
in `u`'s adjacency list. -/
def weightOf (st : Adj) (u v : Nat) : ℚ :=
  (st.wts.getD u []).getD (idxOfD (st.nbrs.getD u []) v) 0

/-- The inner loop of a walk row (lines 329–332): starting from the
current edge at position `index`, perform `remaining` second-order steps,
collecting the destinations. -/
def walkFrom (g : Graph) (σ : Nat → Nat × ℚ) :
    Nat → Nat → Nat → Option (List Nat)
  | _, _, 0 => some []
  | e, index, remaining + 1 => do
    let e2 ← extract_random_edge_neighbour g e (σ index)
    let d ← get_edge_destination g e2
    let rest ← walkFrom g σ e2 (index + 1) remaining
    pure (d :: rest)

/-- One row of the walk matrix (lines 326–332): `walk[0] = start`,
`walk[1]` drawn from the node table, then `walk_length - 2` second-order
steps along the line graph. -/
def singleWalk (g : Graph) (walkLength start : Nat) (σ : Nat → Nat × ℚ) :
    Option (List Nat) := do
  let d ← extract_random_node_neighbour g start (σ 1)
  let e ← get_edge_id g start d
  let rest ← walkFrom g σ e 2 (walkLength - 2)
  pure (start :: d :: rest)

/-- Sequence the rows of the walk matrix; any failing row fails the whole
call (the jitted function either returns the full matrix or raises). -/
def collectRows (g : Graph) (walkLength : Nat) (σ : Nat → Nat → Nat × ℚ) :
    List Nat → Option (List (List Nat))
  | [] => some []
  | row :: rest => do
    let w ← singleWalk g walkLength (row % nodes_number g) (σ row)
    let ws ← collectRows g walkLength σ rest
    pure (w :: ws)

/-- `random_walk` (lines 299–333): one row per `(repetition, start node)`
pair, the row for repetition `i` and start `s` at index
`i * nodes_number + s`; row `k` therefore starts at node
`k % nodes_number`.  The per-row random stream is `σ row`. -/
def random_walk (g : Graph) (walkLength numWalks : Nat)
    (σ : Nat → Nat → Nat × ℚ) : Option (List (List Nat)) :=
  collectRows g walkLength σ (List.range (numWalks * nodes_number g))

/-- The second-order weight rule as the specification words it (§4.2,
step 5): for edge `(prev, cur)` and candidate next NODE `next`, the
weight of `(cur, next)` is kept when `(next, prev)` is an edge,
multiplied by `return_weight` when `next == prev`, and multiplied by
`explore_weight` otherwise.  Stated from the spec's words for comparison
with `edgeRawWeights`, which follows the source. -/
def specSecondOrderWeights (st : Adj) (rw ew : ℚ) (p : Nat × Nat) :
    List ℚ :=
  ((st.nbrs.getD p.2 []).zip (st.wts.getD p.2 [])).map
    fun nw =>
      if (nw.1, p.1) ∈ st.edgeList then nw.2
      else if nw.1 = p.1 then nw.2 * rw
      else nw.2 * ew

/-- The spec's §8 4-node directed chain `A→B→C→D` with uniform weight 1
and `return_weight = explore_weight = 1`. -/
def gChain : Graph :=
  buildFromIds 4 [(0, 1), (1, 2), (2, 3)] [1, 1, 1] [true, true, true] 1 1

/-- Well-formedness of the adjacency state maintained by the edge loop:
adjacency and weight tables have one entry per node, every recorded pair
has in-range endpoints, every adjacency entry corresponds to a recorded
edge, per-node neighbour and weight lists stay parallel, and the edge key
list has no duplicate pair. -/
structure AdjWf (n : Nat) (st : Adj) : Prop where
  nbrsLen : st.nbrs.length = n
  wtsLen : st.wts.length = n
  edgeBound : ∀ p ∈ st.edgeList, p.1 < n ∧ p.2 < n
  nbrsSound : ∀ v x, x ∈ st.nbrs.getD v [] → x < n ∧ (v, x) ∈ st.edgeList
  lenSync : ∀ v, (st.nbrs.getD v []).length = (st.wts.getD v []).length
  nodupEdges : st.edgeList.Nodup

/-- Shape facts about a constructed graph needed by the query and walk
theorems: the adjacency part is well formed, the alias lists have the
documented entries, and `nodes_number` counts the nodes. -/
structure GraphWf (n : Nat) (rw ew : ℚ) (g : Graph) : Prop where
  adjWf : AdjWf n g.adj
  nodesCount : nodes_number g = n
  nodesAliasAt : ∀ v, v < n →
    g.nodesAlias.get? v = some (g.nbrs.getD v [], alias_setup (g.wts.getD v []))
  edgesAliasAt : ∀ e p, g.edgeList.get? e = some p →
    g.edgesAlias.get? e = some (edgeSuccessors g.adj p,
      alias_setup (normalize (edgeRawWeights g.adj rw ew p)))

/-! ### Lemmas about the alias sampler -/

theorem aliasLoop_fst_length (fuel : Nat) (small large J : List Nat)
    (q : List ℚ) : (aliasLoop fuel small large J q).1.length = J.length := by
  induction fuel generalizing small large J q with
  | zero => rfl
  | succ fuel ih =>
    match small, large with
    | [], _ => rfl
    | _ :: _, [] => rfl
    | s :: smallRest, l :: largeRest =>
      simp only [aliasLoop]
      split
      · rw [ih]; simp
      · rw [ih]; simp

theorem aliasLoop_snd_length (fuel : Nat) (small large J : List Nat)
    (q : List ℚ) : (aliasLoop fuel small large J q).2.length = q.length := by
  induction fuel generalizing small large J q with
  | zero => rfl
  | succ fuel ih =>
    match small, large with
    | [], _ => rfl
    | _ :: _, [] => rfl
    | s :: smallRest, l :: largeRest =>
      simp only [aliasLoop]
      split
      · rw [ih]; simp
      · rw [ih]; simp

theorem aliasLoop_fst_mem_lt (fuel : Nat) (small large J : List Nat)
    (q : List ℚ) (n : Nat) (hlarge : ∀ x ∈ large, x < n)
    (hJ : ∀ x ∈ J, x < n) :
    ∀ x ∈ (aliasLoop fuel small large J q).1, x < n := by
  induction fuel generalizing small large J q with
  | zero => exact hJ
  | succ fuel ih =>
    match small, large with
    | [], _ => exact hJ
    | _ :: _, [] => exact hJ
    | s :: smallRest, l :: largeRest =>
      have hl : l < n := hlarge l (by simp)
      have hJ1 : ∀ x ∈ J.set s l, x < n := by
        intro x hx
        rcases List.mem_or_eq_of_mem_set hx with h | h
        · exact hJ x h
        · exact h ▸ hl
      simp only [aliasLoop]
      split
      · exact ih (l :: smallRest) largeRest _ _
          (fun x hx => hlarge x (List.mem_cons_of_mem l hx)) hJ1
      · exact ih smallRest (l :: largeRest) _ _
          (fun x hx => by
            rcases List.mem_cons.mp hx with h | h
            · exact h ▸ hl
            · exact hlarge x (List.mem_cons_of_mem l h)) hJ1

theorem alias_setup_J_length (w : List ℚ) :
    (alias_setup w).J.length = w.length := by
  simp only [alias_setup]
  rw [aliasLoop_fst_length]
  simp

theorem alias_setup_q_length (w : List ℚ) :
    (alias_setup w).q.length = w.length := by
  simp only [alias_setup]
  rw [aliasLoop_snd_length]
  simp [aliasScaled]

theorem alias_setup_J_mem_lt (w : List ℚ) :
    ∀ x ∈ (alias_setup w).J, x < w.length := by
  simp only [alias_setup]
  refine aliasLoop_fst_mem_lt _ _ _ _ _ _ ?_ ?_
  · intro x hx
    have := List.mem_range.mp (List.mem_of_mem_filter hx)
    exact this
  · intro x hx
    have hx0 := List.eq_of_mem_replicate hx
    subst hx0
    have hne : w.length ≠ 0 := by
      intro h0
      rw [h0] at hx
      simp at hx
    exact Nat.pos_of_ne_zero hne

theorem alias_draw_empty (t : AliasTable) (i : Nat) (r : ℚ)
    (h : t.J.length = 0) : alias_draw t i r = none := by
  simp [alias_draw, h]

theorem alias_draw_some_lt (t : AliasTable) (i : Nat) (r : ℚ) (n : Nat)
    (hne : t.J.length ≠ 0) (hlen : t.J.length ≤ n)
    (hmem : ∀ x ∈ t.J, x < n) :
    ∃ k, alias_draw t i r = some k ∧ k < n := by
  simp only [alias_draw, hne, if_false]
  refine ⟨_, rfl, ?_⟩
  have hkk : i % t.J.length < t.J.length := Nat.mod_lt _ (Nat.pos_of_ne_zero hne)
  split
  · exact lt_of_lt_of_le hkk hlen
  · have : t.J.getD (i % t.J.length) 0 ∈ t.J := by
      rw [List.getD_eq_getElem?_getD]
      have := List.getElem?_eq_getElem (l := t.J) hkk
      rw [this]
      exact List.getElem_mem _
    exact hmem _ this

theorem alias_draw_setup_some (w : List ℚ) (i : Nat) (r : ℚ)
    (hw : w ≠ []) :
    ∃ k, alias_draw (alias_setup w) i r = some k ∧ k < w.length := by
  have h1 := alias_setup_J_length w
  refine alias_draw_some_lt _ i r w.length ?_ (le_of_eq h1) ?_
  · rw [h1]
    exact fun hz => hw (List.eq_nil_of_length_eq_zero hz)
  · exact alias_setup_J_mem_lt w

theorem alias_draw_single (J0 : Nat) (qv : ℚ) (i : Nat) (r : ℚ)
    (hJ : J0 = 0) : alias_draw ⟨[J0], [qv]⟩ i r = some 0 := by
  subst hJ
  simp [alias_draw, Nat.mod_one, ite_self]

theorem sum_map_div (l : List ℚ) (c : ℚ) :
    (l.map fun x => x / c).sum = l.sum / c := by
  induction l with
  | nil => simp
  | cons a l ih => simp [ih, add_div]

theorem normalize_length (l : List ℚ) : (normalize l).length = l.length := by
  simp [normalize]

theorem normalize_sum (l : List ℚ) (h : l.sum ≠ 0) : (normalize l).sum = 1 := by
  simp only [normalize, sum_map_div]
  exact div_self h

theorem aliasScaled_normalize (w : List ℚ) (h : w.sum ≠ 0) :
    aliasScaled (normalize w) = aliasScaled w := by
  simp only [aliasScaled, normalize_length, normalize_sum w h, div_one]
  simp only [normalize, List.map_map]
  rfl

theorem alias_setup_congr (w1 w2 : List ℚ) (hl : w1.length = w2.length)
    (hs : aliasScaled w1 = aliasScaled w2) :
    alias_setup w1 = alias_setup w2 := by
  simp only [alias_setup, hl, hs]

theorem alias_setup_normalize (w : List ℚ) (h : w.sum ≠ 0) :
    alias_setup (normalize w) = alias_setup w :=
  alias_setup_congr _ _ (normalize_length w) (aliasScaled_normalize w h)

/-! ### List helpers -/

theorem idxOfD_lt_length {α : Type} [DecidableEq α] (l : List α) (a : α)
    (h : a ∈ l) : idxOfD l a < l.length := by
  induction l with
  | nil => cases h
  | cons b l ih =>
    rw [idxOfD]
    by_cases hb : b = a
    · rw [if_pos hb]
      simp
    · rw [if_neg hb]
      have ha : a ∈ l := by
        rcases List.mem_cons.mp h with h1 | h1
        · exact absurd h1.symm hb
        · exact h1
      simpa using ih ha

theorem get?_idxOfD {α : Type} [DecidableEq α] (l : List α) (a : α)
    (h : a ∈ l) : l.get? (idxOfD l a) = some a := by
  induction l with
  | nil => cases h
  | cons b l ih =>
    rw [idxOfD]
    by_cases hb : b = a
    · rw [if_pos hb, hb]
      rfl
    · rw [if_neg hb]
      have ha : a ∈ l := by
        rcases List.mem_cons.mp h with h1 | h1
        · exact absurd h1.symm hb
        · exact h1
      exact ih ha

theorem idxOfD_append_left {α : Type} [DecidableEq α] (l1 l2 : List α)
    (a : α) (h : a ∈ l1) : idxOfD (l1 ++ l2) a = idxOfD l1 a := by
  induction l1 with
  | nil => cases h
  | cons b l1 ih =>
    rw [List.cons_append, idxOfD, idxOfD]
    by_cases hb : b = a
    · rw [if_pos hb, if_pos hb]
    · rw [if_neg hb, if_neg hb]
      have ha : a ∈ l1 := by
        rcases List.mem_cons.mp h with h1 | h1
        · exact absurd h1.symm hb
        · exact h1
      rw [ih ha]

theorem idxOfD_append_self {α : Type} [DecidableEq α] (l : List α)
    (a : α) (h : a ∉ l) : idxOfD (l ++ [a]) a = l.length := by
  induction l with
  | nil => simp [idxOfD]
  | cons b l ih =>
    have hb : b ≠ a := fun hba => h (hba ▸ List.mem_cons_self b l)
    have ha : a ∉ l := fun hm => h (List.mem_cons_of_mem b hm)
    rw [List.cons_append, idxOfD, if_neg hb, ih ha]
    rfl

theorem getD_append_left {α : Type} (l1 l2 : List α) (i : Nat) (d : α)
    (h : i < l1.length) : (l1 ++ l2).getD i d = l1.getD i d := by
  rw [List.getD_eq_getElem?_getD, List.getD_eq_getElem?_getD,
    List.getElem?_append]
  simp [h]

theorem getD_append_at {α : Type} (l : List α) (a : α) (d : α) :
    (l ++ [a]).getD l.length d = a := by
  rw [List.getD_eq_getElem?_getD, List.getElem?_append]
  simp

theorem getD_set_ne {α : Type} (l : List α) (i j : Nat) (a : α) (d : α)
    (h : i ≠ j) : (l.set i a).getD j d = l.getD j d := by
  rw [List.getD_eq_getElem?_getD, List.getD_eq_getElem?_getD,
    List.getElem?_set_ne h]

theorem getD_set_self {α : Type} (l : List α) (i : Nat) (a : α) (d : α)
    (h : i < l.length) : (l.set i a).getD i d = a := by
  rw [List.getD_eq_getElem?_getD, List.getElem?_set_self h]
  rfl

theorem getD_replicate_default {α : Type} (n i : Nat) (d : α) :
    (List.replicate n d).getD i d = d := by
  rw [List.getD_eq_getElem?_getD, List.getElem?_replicate]
  split <;> rfl

/-! ### Construction invariants -/

theorem adjWf_init (n : Nat) : AdjWf n (Adj.init n) := by
  refine ⟨by simp [Adj.init], by simp [Adj.init], ?_, ?_, ?_, by simp [Adj.init]⟩
  · intro p hp
    simp [Adj.init] at hp
  · intro v x hx
    rw [Adj.init] at hx
    simp only at hx
    rcases Nat.lt_or_ge v n with h | h
    · rw [List.getD_eq_getElem?_getD, List.getElem?_replicate] at hx
      simp [h] at hx
    · rw [List.getD_eq_getElem?_getD, List.getElem?_replicate] at hx
      rw [if_neg (by omega)] at hx
      simp at hx
  · intro v
    rw [Adj.init]
    simp only
    rw [List.getD_eq_getElem?_getD, List.getD_eq_getElem?_getD,
      List.getElem?_replicate, List.getElem?_replicate]
    split <;> rfl

theorem insertEdge_edgeList (st : Adj) (src dst : Nat) (w : ℚ) :
    (insertEdge st src dst w).edgeList = st.edgeList ++ [(src, dst)] := rfl

theorem insertEdge_nbrs_getD_ne (st : Adj) (src dst : Nat) (w : ℚ)
    (v : Nat) (h : v ≠ src) :
    (insertEdge st src dst w).nbrs.getD v [] = st.nbrs.getD v [] :=
  getD_set_ne _ _ _ _ _ (fun hsv => h hsv.symm)

theorem insertEdge_wts_getD_ne (st : Adj) (src dst : Nat) (w : ℚ)
    (v : Nat) (h : v ≠ src) :
    (insertEdge st src dst w).wts.getD v [] = st.wts.getD v [] :=
  getD_set_ne _ _ _ _ _ (fun hsv => h hsv.symm)

theorem insertEdge_nbrs_getD_self (st : Adj) (src dst : Nat) (w : ℚ)
    (h : src < st.nbrs.length) :
    (insertEdge st src dst w).nbrs.getD src [] =
      st.nbrs.getD src [] ++ [dst] :=
  getD_set_self _ _ _ _ h

theorem insertEdge_wts_getD_self (st : Adj) (src dst : Nat) (w : ℚ)
    (h : src < st.wts.length) :
    (insertEdge st src dst w).wts.getD src [] = st.wts.getD src [] ++ [w] :=
  getD_set_self _ _ _ _ h

theorem adjWf_insertEdge (n : Nat) (st : Adj) (src dst : Nat) (w : ℚ)
    (hwf : AdjWf n st) (hsrc : src < n) (hdst : dst < n)
    (habs : (src, dst) ∉ st.edgeList) :
    AdjWf n (insertEdge st src dst w) := by
  refine ⟨?_, ?_, ?_, ?_, ?_, ?_⟩
  · simp [insertEdge, hwf.nbrsLen]
  · simp [insertEdge, hwf.wtsLen]
  · intro p hp
    rw [insertEdge_edgeList] at hp
    rcases List.mem_append.mp hp with h | h
    · exact hwf.edgeBound p h
    · rcases List.mem_singleton.mp h with rfl
      exact ⟨hsrc, hdst⟩
  · intro v x hx
    by_cases hv : v = src
    · subst hv
      rw [insertEdge_nbrs_getD_self st v dst w (hwf.nbrsLen ▸ hsrc)] at hx
      rcases List.mem_append.mp hx with h | h
      · rcases hwf.nbrsSound v x h with ⟨h1, h2⟩
        exact ⟨h1, by rw [insertEdge_edgeList]; exact List.mem_append_left _ h2⟩
      · rcases List.mem_singleton.mp h with rfl
        exact ⟨hdst, by rw [insertEdge_edgeList]; simp⟩
    · rw [insertEdge_nbrs_getD_ne st src dst w v hv] at hx
      rcases hwf.nbrsSound v x hx with ⟨h1, h2⟩
      exact ⟨h1, by rw [insertEdge_edgeList]; exact List.mem_append_left _ h2⟩
  · intro v
    by_cases hv : v = src
    · subst hv
      rw [insertEdge_nbrs_getD_self st v dst w (hwf.nbrsLen ▸ hsrc),
        insertEdge_wts_getD_self st v dst w (hwf.wtsLen ▸ hsrc),
        List.length_append, List.length_append, hwf.lenSync v]
      rfl
    · rw [insertEdge_nbrs_getD_ne st src dst w v hv,
        insertEdge_wts_getD_ne st src dst w v hv]
      exact hwf.lenSync v
  · rw [insertEdge_edgeList, List.nodup_append]
    exact ⟨hwf.nodupEdges, List.nodup_singleton _,
      by intro p hp hps; rcases List.mem_singleton.mp hps with rfl; exact habs hp⟩

theorem adjWf_addEdge (n : Nat) (st : Adj) (src dst : Nat) (w : ℚ)
    (dir : Bool) (hwf : AdjWf n st) (hsrc : src < n) (hdst : dst < n) :
    AdjWf n (addEdge st src dst w dir) := by
  have hwf1 : AdjWf n (if (src, dst) ∈ st.edgeList then st
      else insertEdge st src dst w) := by
    by_cases h : (src, dst) ∈ st.edgeList
    · rw [if_pos h]; exact hwf
    · rw [if_neg h]; exact adjWf_insertEdge n st src dst w hwf hsrc hdst h
  simp only [addEdge]
  by_cases hd : dir = true
  · rw [if_pos hd]; exact hwf1
  · rw [if_neg hd]
    by_cases h2 : (dst, src) ∈
        (if (src, dst) ∈ st.edgeList then st
          else insertEdge st src dst w).edgeList
    · rw [if_pos h2]; exact hwf1
    · rw [if_neg h2]; exact adjWf_insertEdge n _ dst src w hwf1 hdst hsrc h2

theorem adjWf_foldl (n : Nat) (items : List ((Nat × Nat) × (ℚ × Bool)))
    (st : Adj) (hwf : AdjWf n st)
    (hb : ∀ item ∈ items, item.1.1 < n ∧ item.1.2 < n) :
    AdjWf n (items.foldl adjStep st) := by
  induction items generalizing st with
  | nil => exact hwf
  | cons item rest ih =>
    rw [List.foldl_cons]
    refine ih _ ?_ (fun it hit => hb it (List.mem_cons_of_mem item hit))
    rcases hb item (List.mem_cons_self item rest) with ⟨h1, h2⟩
    exact adjWf_addEdge n st _ _ _ _ hwf h1 h2

theorem adjWf_buildAdj (n : Nat) (edges : List (Nat × Nat))
    (weights : List ℚ) (directed : List Bool)
    (hb : ∀ p ∈ edges, p.1 < n ∧ p.2 < n) :
    AdjWf n (buildAdj n edges weights directed) := by
  refine adjWf_foldl n _ _ (adjWf_init n) ?_
  intro item hit
  exact hb item.1 (List.of_mem_zip hit).1

/-! ### Name resolution and construction -/

theorem nodesMapping_lt (nodes : List String) (name : String) (v : Nat)
    (h : nodesMapping nodes name = some v) : v < nodes.length := by
  induction nodes generalizing v with
  | nil => simp [nodesMapping] at h
  | cons x rest ih =>
    rw [nodesMapping] at h
    rcases hr : nodesMapping rest name with _ | j
    · rw [hr] at h
      simp only at h
      split at h
      · cases h
        simp
      · cases h
    · rw [hr] at h
      simp only at h
      cases h
      have := ih j hr
      simp only [List.length_cons]
      omega

theorem resolveEdges_sound (nodes : List String)
    (edges : List (String × String)) (es : List (Nat × Nat))
    (h : resolveEdges nodes edges = some es) :
    ∀ p ∈ es, ∃ q ∈ edges, nodesMapping nodes q.1 = some p.1 ∧
      nodesMapping nodes q.2 = some p.2 := by
  induction edges generalizing es with
  | nil =>
    rw [resolveEdges] at h
    cases h
    intro p hp
    cases hp
  | cons q rest ih =>
    rw [resolveEdges] at h
    rcases h1 : nodesMapping nodes q.1 with _ | u
    · rw [h1] at h; cases h
    rcases h2 : nodesMapping nodes q.2 with _ | v
    · rw [h1, h2] at h; cases h
    rcases h3 : resolveEdges nodes rest with _ | es1
    · rw [h1, h2, h3] at h; cases h
    rw [h1, h2, h3] at h
    simp only [Option.bind_eq_bind, Option.some_bind, Option.pure_def] at h
    cases h
    intro p hp
    rcases List.mem_cons.mp hp with h4 | h4
    · subst h4
      exact ⟨q, List.mem_cons_self q rest, h1, h2⟩
    · rcases ih es1 h3 p h4 with ⟨q1, hq1, hq2, hq3⟩
      exact ⟨q1, List.mem_cons_of_mem q hq1, hq2, hq3⟩

theorem resolveEdges_bound (nodes : List String)
    (edges : List (String × String)) (es : List (Nat × Nat))
    (h : resolveEdges nodes edges = some es) :
    ∀ p ∈ es, p.1 < nodes.length ∧ p.2 < nodes.length := by
  intro p hp
  rcases resolveEdges_sound nodes edges es h p hp with ⟨q, _, hq1, hq2⟩
  exact ⟨nodesMapping_lt nodes q.1 p.1 hq1, nodesMapping_lt nodes q.2 p.2 hq2⟩

theorem resolveEdges_isSome (nodes : List String)
    (edges : List (String × String))
    (h : ∀ q ∈ edges, (nodesMapping nodes q.1).isSome ∧
      (nodesMapping nodes q.2).isSome) :
    (resolveEdges nodes edges).isSome := by
  induction edges with
  | nil => rw [resolveEdges]; rfl
  | cons q rest ih =>
    rcases h q (List.mem_cons_self q rest) with ⟨h1, h2⟩
    rcases Option.isSome_iff_exists.mp h1 with ⟨u, hu⟩
    rcases Option.isSome_iff_exists.mp h2 with ⟨v, hv⟩
    have h3 := ih fun q1 hq1 => h q1 (List.mem_cons_of_mem q hq1)
    rcases Option.isSome_iff_exists.mp h3 with ⟨es, hes⟩
    rw [resolveEdges, hu, hv, hes]
    rfl

theorem graphWf_buildFromIds (n : Nat) (es : List (Nat × Nat))
    (ws : List ℚ) (ds : List Bool) (rw ew : ℚ)
    (hb : ∀ p ∈ es, p.1 < n ∧ p.2 < n) :
    GraphWf n rw ew (buildFromIds n es ws ds rw ew) := by
  have hwf : AdjWf n (buildAdj n es ws ds) := adjWf_buildAdj n es ws ds hb
  have hadj : (buildFromIds n es ws ds rw ew).adj = buildAdj n es ws ds := rfl
  refine ⟨hadj ▸ hwf, ?_, ?_, ?_⟩
  · show (((buildAdj n es ws ds).nbrs.zip (buildAdj n es ws ds).wts).map
      fun nw => (nw.1, alias_setup nw.2)).length = n
    rw [List.length_map, List.length_zip, hwf.nbrsLen, hwf.wtsLen, min_self]
  · intro v hv
    have hv1 : v < (buildAdj n es ws ds).nbrs.length := by
      rw [hwf.nbrsLen]; exact hv
    have hv2 : v < (buildAdj n es ws ds).wts.length := by
      rw [hwf.wtsLen]; exact hv
    show (((buildAdj n es ws ds).nbrs.zip
      (buildAdj n es ws ds).wts).map fun nw => (nw.1, alias_setup nw.2)).get? v = _
    rw [List.get?_eq_getElem?, List.getElem?_map]
    have h1 : (buildAdj n es ws ds).nbrs[v]? =
        some ((buildAdj n es ws ds).nbrs.getD v []) := by
      rw [List.getD_eq_getElem?_getD, List.getElem?_eq_getElem hv1]
      rfl
    have h2 : (buildAdj n es ws ds).wts[v]? =
        some ((buildAdj n es ws ds).wts.getD v []) := by
      rw [List.getD_eq_getElem?_getD, List.getElem?_eq_getElem hv2]
      rfl
    have hz : ((buildAdj n es ws ds).nbrs.zip (buildAdj n es ws ds).wts)[v]? =
        some ((buildAdj n es ws ds).nbrs.getD v [],
          (buildAdj n es ws ds).wts.getD v []) := by
      rw [List.getElem?_zip_eq_some]
      exact ⟨h1, h2⟩
    rw [hz]
    rfl
  · intro e p hp
    show ((buildAdj n es ws ds).edgeList.map fun q =>
      (edgeSuccessors (buildAdj n es ws ds) q,
        alias_setup (normalize
          (edgeRawWeights (buildAdj n es ws ds) rw ew q)))).get? e = _
    rw [List.get?_eq_getElem?, List.getElem?_map]
    have hp2 : (buildAdj n es ws ds).edgeList[e]? = some p := by
      rw [← List.get?_eq_getElem?]
      exact hp
    rw [hp2]
    rfl

theorem graphWf_build (nodes : List String)
    (edges : List (String × String)) (ws : List ℚ) (ds : List Bool)
    (rw ew : ℚ) (g : Graph)
    (h : Graph.build nodes edges ws ds rw ew = some g) :
    GraphWf nodes.length rw ew g := by
  rw [Graph.build] at h
  rcases hres : resolveEdges nodes edges with _ | es
  · rw [hres] at h; cases h
  · rw [hres] at h
    have h2 : buildFromIds nodes.length es ws ds rw ew = g :=
      Option.some.inj h
    rw [← h2]
    exact graphWf_buildFromIds nodes.length es ws ds rw ew
      (resolveEdges_bound nodes edges es hres)

/-! ### Success of walk steps on well-formed graphs -/

theorem getD_get?_of_lt {α : Type} (l : List α) (k : Nat) (d : α)
    (h : k < l.length) : l.get? k = some (l.getD k d) := by
  rw [List.get?_eq_getElem?, List.getD_eq_getElem?_getD,
    List.getElem?_eq_getElem h]
  rfl

theorem getD_mem_of_lt {α : Type} (l : List α) (k : Nat) (d : α)
    (h : k < l.length) : l.getD k d ∈ l := by
  have := getD_get?_of_lt l k d h
  rw [List.get?_eq_getElem?, List.getElem?_eq_getElem h] at this
  have h2 : l[k] = l.getD k d := Option.some.inj this
  rw [← h2]
  exact List.getElem_mem h

theorem extract_node_some (n : Nat) (rw ew : ℚ) (g : Graph)
    (hwf : GraphWf n rw ew g) (v : Nat) (hv : v < n)
    (hne : g.nbrs.getD v [] ≠ []) (d : Nat × ℚ) :
    ∃ x, extract_random_node_neighbour g v d = some x ∧
      x ∈ g.nbrs.getD v [] := by
  have hlen : (g.nbrs.getD v []).length = (g.wts.getD v []).length :=
    hwf.adjWf.lenSync v
  have hwne : g.wts.getD v [] ≠ [] := by
    intro hz
    apply hne
    apply List.eq_nil_of_length_eq_zero
    rw [hlen, hz]
    rfl
  rcases alias_draw_setup_some (g.wts.getD v []) d.1 d.2 hwne with ⟨k, hk, hklt⟩
  have hklt2 : k < (g.nbrs.getD v []).length := by rw [hlen]; exact hklt
  refine ⟨(g.nbrs.getD v []).getD k 0, ?_, ?_⟩
  · rw [extract_random_node_neighbour, hwf.nodesAliasAt v hv]
    simp only [Option.bind_eq_bind, Option.some_bind, hk]
    exact getD_get?_of_lt _ k 0 hklt2
  · exact getD_mem_of_lt _ k 0 hklt2

theorem edgeRawWeights_length (st : Adj) (rw ew : ℚ) (p : Nat × Nat)
    (hsync : (st.nbrs.getD p.2 []).length = (st.wts.getD p.2 []).length) :
    (edgeRawWeights st rw ew p).length = (st.nbrs.getD p.2 []).length := by
  rw [edgeRawWeights, List.length_map, List.length_zip, edgeSuccessors,
    List.length_map, ← hsync, min_self]

theorem extract_edge_some (n : Nat) (rw ew : ℚ) (g : Graph)
    (hwf : GraphWf n rw ew g) (e : Nat) (p : Nat × Nat)
    (hp : g.edgeList.get? e = some p) (hne : g.nbrs.getD p.2 [] ≠ [])
    (d : Nat × ℚ) :
    ∃ e2 x, extract_random_edge_neighbour g e d = some e2 ∧
      g.edgeList.get? e2 = some (p.2, x) ∧ x < n := by
  have hsync : (g.nbrs.getD p.2 []).length = (g.wts.getD p.2 []).length :=
    hwf.adjWf.lenSync p.2
  have hrawlen : (edgeRawWeights g.adj rw ew p).length =
      (g.nbrs.getD p.2 []).length :=
    edgeRawWeights_length g.adj rw ew p hsync
  have hrawne : normalize (edgeRawWeights g.adj rw ew p) ≠ [] := by
    intro hz
    apply hne
    apply List.eq_nil_of_length_eq_zero
    rw [← hrawlen, ← normalize_length, hz]
    rfl
  rcases alias_draw_setup_some (normalize (edgeRawWeights g.adj rw ew p))
    d.1 d.2 hrawne with ⟨k, hk, hklt⟩
  have hklt2 : k < (g.nbrs.getD p.2 []).length := by
    rw [← hrawlen, ← normalize_length]
    exact hklt
  have hxmem : (g.nbrs.getD p.2 []).getD k 0 ∈ g.nbrs.getD p.2 [] :=
    getD_mem_of_lt _ k 0 hklt2
  rcases hwf.adjWf.nbrsSound p.2 _ hxmem with ⟨hxlt, hxedge⟩
  refine ⟨idxOfD g.edgeList (p.2, (g.nbrs.getD p.2 []).getD k 0),
    (g.nbrs.getD p.2 []).getD k 0, ?_, ?_, hxlt⟩
  · rw [extract_random_edge_neighbour, hwf.edgesAliasAt e p hp]
    simp only [Option.bind_eq_bind, Option.some_bind, hk]
    rw [edgeSuccessors]
    rw [List.get?_eq_getElem?, List.getElem?_map]
    have h5 : (g.adj.nbrs.getD p.2 [])[k]? =
        some ((g.nbrs.getD p.2 []).getD k 0) := by
      rw [← List.get?_eq_getElem?]
      exact getD_get?_of_lt _ k 0 hklt2
    rw [h5]
    rfl
  · exact get?_idxOfD g.edgeList _ hxedge

theorem walkFrom_some (n : Nat) (rw ew : ℚ) (g : Graph)
    (hwf : GraphWf n rw ew g) (σ : Nat → Nat × ℚ)
    (hdeg : ∀ v, v < n → g.nbrs.getD v [] ≠ []) :
    ∀ remaining e p index, g.edgeList.get? e = some p → p.2 < n →
    ∃ l, walkFrom g σ e index remaining = some l ∧
      l.length = remaining := by
  intro remaining
  induction remaining with
  | zero => intro e p index _ _; exact ⟨[], rfl, rfl⟩
  | succ remaining ih =>
    intro e p index hp hplt
    rcases extract_edge_some n rw ew g hwf e p hp (hdeg p.2 hplt) (σ index)
      with ⟨e2, x, he2, hx, hxlt⟩
    rcases ih e2 (p.2, x) (index + 1) hx hxlt with ⟨l, hl, hllen⟩
    refine ⟨x :: l, ?_, by simp [hllen]⟩
    rw [walkFrom]
    simp only [Option.bind_eq_bind, he2, Option.some_bind]
    rw [get_edge_destination, hx]
    simp only [Option.map_some', Option.some_bind, hl, Option.some_bind]
    rfl

theorem singleWalk_some (n : Nat) (rw ew : ℚ) (g : Graph)
    (hwf : GraphWf n rw ew g) (σ : Nat → Nat × ℚ)
    (hdeg : ∀ v, v < n → g.nbrs.getD v [] ≠ []) (s : Nat) (hs : s < n)
    (L : Nat) (hL : 2 ≤ L) :
    ∃ w, singleWalk g L s σ = some w ∧ w.length = L ∧
      w.head? = some s := by
  rcases extract_node_some n rw ew g hwf s hs (hdeg s hs) (σ 1)
    with ⟨d, hd, hdm⟩
  rcases hwf.adjWf.nbrsSound s d hdm with ⟨hdlt, hde⟩
  have hgete : g.edgeList.get? (idxOfD g.edgeList (s, d)) = some (s, d) :=
    get?_idxOfD g.edgeList _ hde
  rcases walkFrom_some n rw ew g hwf σ hdeg (L - 2)
    (idxOfD g.edgeList (s, d)) (s, d) 2 hgete hdlt with ⟨l, hl, hllen⟩
  have hde2 : (s, d) ∈ g.edgeList := hde
  refine ⟨s :: d :: l, ?_, by simp [hllen]; omega, rfl⟩
  rw [singleWalk]
  simp only [Option.bind_eq_bind, hd, Option.some_bind]
  rw [get_edge_id, if_pos hde2]
  simp only [Option.some_bind, hl, Option.some_bind]
  rfl

theorem collectRows_some (g : Graph) (L : Nat) (σ : Nat → Nat → Nat × ℚ)
    (rows : List Nat)
    (h : ∀ row ∈ rows, ∃ w,
      singleWalk g L (row % nodes_number g) (σ row) = some w) :
    ∃ M, collectRows g L σ rows = some M ∧ M.length = rows.length ∧
      ∀ k row, rows.get? k = some row →
        M.get? k = singleWalk g L (row % nodes_number g) (σ row) := by
  induction rows with
  | nil =>
    refine ⟨[], rfl, rfl, ?_⟩
    intro k row hk
    rw [List.get?_eq_getElem?] at hk
    simp at hk
  | cons row rest ih =>
    rcases h row (List.mem_cons_self row rest) with ⟨w, hw⟩
    rcases ih (fun r hr => h r (List.mem_cons_of_mem row hr))
      with ⟨M1, hM1, hlen, hpt⟩
    refine ⟨w :: M1, ?_, by simp [hlen], ?_⟩
    · rw [collectRows]
      simp only [Option.bind_eq_bind, hw, Option.some_bind, hM1,
        Option.some_bind]
      rfl
    · intro k r hk
      cases k with
      | zero =>
        rw [List.get?_eq_getElem?] at hk
        simp at hk
        subst hk
        exact hw.symm
      | succ k =>
        apply hpt
        rw [List.get?_eq_getElem?] at hk ⊢
        simpa using hk

theorem collectRows_none (g : Graph) (L : Nat) (σ : Nat → Nat → Nat × ℚ)
    (rows : List Nat) (row : Nat) (hmem : row ∈ rows)
    (hfail : singleWalk g L (row % nodes_number g) (σ row) = none) :
    collectRows g L σ rows = none := by
  induction rows with
  | nil => cases hmem
  | cons r rest ih =>
    rw [collectRows]
    rcases List.mem_cons.mp hmem with h | h
    · subst h
      rw [hfail]
      rfl
    · rcases hs : singleWalk g L (r % nodes_number g) (σ r) with _ | w
      · rfl
      · simp only [Option.bind_eq_bind, Option.some_bind, ih h]
        rfl

/-! ### Claim theorems -/

/-- C2: for every constructed index in which every node has at least one
out-neighbour, and for every `walk_length ≥ 2` and `num_repetitions ≥ 1`,
the walk generator returns a matrix with exactly
`node_count * num_repetitions` rows, each row of length `walk_length`,
and for every repetition `r` and start node `s` the row at index
`r * node_count + s` starts with node `s`. -/
theorem C2_random_walk_shape (nodes : List String)
    (edges : List (String × String)) (ws : List ℚ) (ds : List Bool)
    (rw ew : ℚ) (g : Graph) (L R : Nat) (σ : Nat → Nat → Nat × ℚ)
    (hbuild : Graph.build nodes edges ws ds rw ew = some g)
    (hdeg : ∀ v, v < nodes_number g → g.nbrs.getD v [] ≠ [])
    (hL : 2 ≤ L) (hR : 1 ≤ R) :
    ∃ M, random_walk g L R σ = some M ∧
      M.length = nodes_number g * R ∧
      (∀ row ∈ M, row.length = L) ∧
      ∀ r s, r < R → s < nodes_number g →
        ∃ row, M.get? (r * nodes_number g + s) = some row ∧
          row.head? = some s := by
  have hwf := graphWf_build nodes edges ws ds rw ew g hbuild
  have hN : nodes_number g = nodes.length := hwf.nodesCount
  have hdeg2 : ∀ v, v < nodes.length → g.nbrs.getD v [] ≠ [] := by
    intro v hv
    exact hdeg v (by rw [hN]; exact hv)
  have hrows : ∀ row ∈ List.range (R * nodes_number g), ∃ w,
      singleWalk g L (row % nodes_number g) (σ row) = some w := by
    intro row hrow
    have hlt := List.mem_range.mp hrow
    have hNpos : 0 < nodes_number g := by
      rcases Nat.eq_zero_or_pos (nodes_number g) with h0 | h0
      · rw [h0, Nat.mul_zero] at hlt
        cases Nat.not_lt_zero row hlt
      · exact h0
    have hmod : row % nodes_number g < nodes.length := by
      rw [← hN]
      exact Nat.mod_lt row hNpos
    rcases singleWalk_some nodes.length rw ew g hwf (σ row) hdeg2
      (row % nodes_number g) hmod L hL with ⟨w, hw, _, _⟩
    exact ⟨w, hw⟩
  rcases collectRows_some g L σ (List.range (R * nodes_number g)) hrows
    with ⟨M, hM, hMlen, hMpt⟩
  refine ⟨M, hM, ?_, ?_, ?_⟩
  · rw [hMlen, List.length_range, Nat.mul_comm]
  · intro row hrow
    rcases List.mem_iff_get?.mp hrow with ⟨k, hk⟩
    have hklt : k < R * nodes_number g := by
      have := List.get?_eq_some.mp hk
      rcases this with ⟨hlt, _⟩
      rw [hMlen, List.length_range] at hlt
      exact hlt
    have hrangek : (List.range (R * nodes_number g)).get? k = some k := by
      rw [List.get?_eq_getElem?]
      exact List.getElem?_range hklt
    have := hMpt k k hrangek
    rw [hk] at this
    have hNpos : 0 < nodes_number g := by
      rcases Nat.eq_zero_or_pos (nodes_number g) with h0 | h0
      · rw [h0, Nat.mul_zero] at hklt
        cases Nat.not_lt_zero k hklt
      · exact h0
    have hmod : k % nodes_number g < nodes.length := by
      rw [← hN]
      exact Nat.mod_lt k hNpos
    rcases singleWalk_some nodes.length rw ew g hwf (σ k) hdeg2
      (k % nodes_number g) hmod L hL with ⟨w, hw, hwlen, _⟩
    rw [hw] at this
    have hroww : row = w := Option.some.inj this
    rw [hroww]
    exact hwlen
  · intro r s hr hs
    have hidx : r * nodes_number g + s < R * nodes_number g := by
      have h1 : r + 1 ≤ R := hr
      calc r * nodes_number g + s < r * nodes_number g + nodes_number g := by
            omega
        _ = (r + 1) * nodes_number g := by ring
        _ ≤ R * nodes_number g := Nat.mul_le_mul_right _ h1
    have hrangek : (List.range (R * nodes_number g)).get?
        (r * nodes_number g + s) = some (r * nodes_number g + s) := by
      rw [List.get?_eq_getElem?]
      exact List.getElem?_range hidx
    have hpt := hMpt _ _ hrangek
    have hmodeq : (r * nodes_number g + s) % nodes_number g = s := by
      rw [Nat.mul_comm, Nat.mul_add_mod]
      exact Nat.mod_eq_of_lt hs
    have hs2 : s < nodes.length := by rw [← hN]; exact hs
    rcases singleWalk_some nodes.length rw ew g hwf
      (σ (r * nodes_number g + s)) hdeg2 s hs2 L hL with ⟨w, hw, _, hwhead⟩
    rw [hmodeq, hw] at hpt
    exact ⟨w, hpt, hwhead⟩

/-- C2 witness: the theorem applied to the concrete undirected one-edge
graph on two nodes, walk length 2, one repetition. -/
theorem C2_random_walk_shape_witness :
    ∃ M, random_walk (buildFromIds 2 [(0, 1)] [1] [false] 1 1) 2 1
        (fun _ _ => (0, 0)) = some M ∧
      M.length = nodes_number (buildFromIds 2 [(0, 1)] [1] [false] 1 1) * 1 ∧
      (∀ row ∈ M, row.length = 2) ∧
      ∀ r s, r < 1 → s < nodes_number (buildFromIds 2 [(0, 1)] [1] [false] 1 1) →
        ∃ row, M.get? (r * nodes_number (buildFromIds 2 [(0, 1)] [1] [false] 1 1) + s) = some row ∧
          row.head? = some s := by
  refine C2_random_walk_shape ["a", "b"] [("a", "b")] [1] [false] 1 1
    (buildFromIds 2 [(0, 1)] [1] [false] 1 1) 2 1 (fun _ _ => (0, 0))
    (by decide) ?_ (by decide) (by decide)
  intro v hv
  have hv2 : v < 2 := by
    have : nodes_number (buildFromIds 2 [(0, 1)] [1] [false] 1 1) = 2 := by
      decide
    rw [this] at hv
    exact hv
  interval_cases v <;> decide

/-- C3: for every constructed index and every ordered pair `(u, v)`,
`has_edge (u, v)` is true iff `get_edge_id u v` succeeds (it fails with a
lookup error when the ordered pair is absent), and whenever it succeeds,
`get_edge_destination (get_edge_id u v) = v`. -/
theorem C3_edge_id_has_edge (nodes : List String)
    (edges : List (String × String)) (ws : List ℚ) (ds : List Bool)
    (rw ew : ℚ) (g : Graph)
    (hbuild : Graph.build nodes edges ws ds rw ew = some g) (u v : Nat) :
    (has_edge g (u, v) = true ↔ (get_edge_id g u v).isSome) ∧
    ∀ e, get_edge_id g u v = some e →
      get_edge_destination g e = some v := by
  constructor
  · constructor
    · intro h
      have hm : (u, v) ∈ g.edgeList := by
        rw [has_edge] at h
        exact of_decide_eq_true h
      rw [get_edge_id, if_pos hm]
      rfl
    · intro h
      by_cases hm : (u, v) ∈ g.edgeList
      · rw [has_edge]
        exact decide_eq_true hm
      · rw [get_edge_id, if_neg hm] at h
        cases h
  · intro e he
    by_cases hm : (u, v) ∈ g.edgeList
    · rw [get_edge_id, if_pos hm] at he
      have he2 : idxOfD g.edgeList (u, v) = e := Option.some.inj he
      rw [get_edge_destination, ← he2, get?_idxOfD g.edgeList _ hm]
      rfl
    · rw [get_edge_id, if_neg hm] at he
      cases he

/-- C3 witness: the theorem applied to the one-directed-edge graph on two
nodes, at the pair `(0, 1)`. -/
theorem C3_edge_id_has_edge_witness :
    (has_edge (buildFromIds 2 [(0, 1)] [1] [true] 1 1) (0, 1) = true ↔
      (get_edge_id (buildFromIds 2 [(0, 1)] [1] [true] 1 1) 0 1).isSome) ∧
    ∀ e, get_edge_id (buildFromIds 2 [(0, 1)] [1] [true] 1 1) 0 1 = some e →
      get_edge_destination (buildFromIds 2 [(0, 1)] [1] [true] 1 1) e =
        some 1 :=
  C3_edge_id_has_edge ["a", "b"] [("a", "b")] [1] [true] 1 1
    (buildFromIds 2 [(0, 1)] [1] [true] 1 1) (by decide) 0 1

/-- C5: for every constructed index and every edge `(u, v)`, the
candidate-successor (targets) list of that edge's second-order alias
table is exactly the list of edge ids of `(v, w)` for every outgoing
neighbour `w` of `v`, in the order of `v`'s adjacency list; each listed
id is the id `get_edge_id` returns for `(v, w)` and its destination is
`w`. -/
theorem C5_edge_targets (nodes : List String)
    (edges : List (String × String)) (ws : List ℚ) (ds : List Bool)
    (rw ew : ℚ) (g : Graph) (e : Nat) (p : Nat × Nat)
    (hbuild : Graph.build nodes edges ws ds rw ew = some g)
    (hp : g.edgeList.get? e = some p) :
    ∃ entry, g.edgesAlias.get? e = some entry ∧
      entry.1 = (g.nbrs.getD p.2 []).map
        (fun w => idxOfD g.edgeList (p.2, w)) ∧
      ∀ w ∈ g.nbrs.getD p.2 [],
        get_edge_id g p.2 w = some (idxOfD g.edgeList (p.2, w)) ∧
        get_edge_destination g (idxOfD g.edgeList (p.2, w)) = some w := by
  have hwf := graphWf_build nodes edges ws ds rw ew g hbuild
  refine ⟨_, hwf.edgesAliasAt e p hp, rfl, ?_⟩
  intro w hw
  rcases hwf.adjWf.nbrsSound p.2 w hw with ⟨_, hmem⟩
  have hmem2 : (p.2, w) ∈ g.edgeList := hmem
  constructor
  · rw [get_edge_id, if_pos hmem2]
  · rw [get_edge_destination, get?_idxOfD g.edgeList _ hmem2]
    rfl

/-- C5 witness: the theorem applied to the two-edge path graph at edge
id 0 `= (0, 1)`. -/
theorem C5_edge_targets_witness :
    ∃ entry, (buildFromIds 3 [(0, 1), (1, 2)] [1, 1] [true, true] 1
      1).edgesAlias.get? 0 = some entry ∧
      entry.1 = ((buildFromIds 3 [(0, 1), (1, 2)] [1, 1] [true, true] 1
          1).nbrs.getD 1 []).map
        (fun w => idxOfD (buildFromIds 3 [(0, 1), (1, 2)] [1, 1]
          [true, true] 1 1).edgeList (1, w)) ∧
      ∀ w ∈ (buildFromIds 3 [(0, 1), (1, 2)] [1, 1] [true, true] 1
          1).nbrs.getD 1 [],
        get_edge_id (buildFromIds 3 [(0, 1), (1, 2)] [1, 1] [true, true]
            1 1) 1 w =
          some (idxOfD (buildFromIds 3 [(0, 1), (1, 2)] [1, 1]
            [true, true] 1 1).edgeList (1, w)) ∧
        get_edge_destination (buildFromIds 3 [(0, 1), (1, 2)] [1, 1]
            [true, true] 1 1) (idxOfD (buildFromIds 3 [(0, 1), (1, 2)]
            [1, 1] [true, true] 1 1).edgeList (1, w)) = some w :=
  C5_edge_targets ["a", "b", "c"] [("a", "b"), ("b", "c")] [1, 1]
    [true, true] 1 1 (buildFromIds 3 [(0, 1), (1, 2)] [1, 1] [true, true]
      1 1) 0 (0, 1) (by decide) (by decide)

theorem map_second_order_one (l : List (Nat × ℚ)) (el : List (Nat × Nat))
    (s : Nat) :
    (l.map fun nw =>
      if (nw.1, s) ∈ el then nw.2
      else if nw.1 = s then nw.2 * 1
      else nw.2 * 1) = l.map Prod.snd := by
  apply List.map_congr_left
  intro a _
  by_cases h1 : (a.1, s) ∈ el
  · rw [if_pos h1]
  · rw [if_neg h1]
    by_cases h2 : a.1 = s
    · rw [if_pos h2, mul_one]
    · rw [if_neg h2, mul_one]

/-- C4: for every constructed index with `return_weight = 1` and
`explore_weight = 1`, the second-order transition data built for each
edge `(prev, cur)` is exactly the first-order data of node `cur`: the
unnormalized weight vector equals `cur`'s raw outgoing weights, and
(whenever those weights have nonzero sum) the edge's alias table equals
the alias table in `cur`'s node entry. -/
theorem C4_uniform_bias_reduces (nodes : List String)
    (edges : List (String × String)) (ws : List ℚ) (ds : List Bool)
    (g : Graph) (e : Nat) (p : Nat × Nat)
    (hbuild : Graph.build nodes edges ws ds 1 1 = some g)
    (hp : g.edgeList.get? e = some p)
    (hsum : (g.wts.getD p.2 []).sum ≠ 0) :
    edgeRawWeights g.adj 1 1 p = g.wts.getD p.2 [] ∧
    g.edgesAlias.get? e = some (edgeSuccessors g.adj p,
      alias_setup (g.wts.getD p.2 [])) ∧
    (g.nodesAlias.get? p.2).map Prod.snd =
      some (alias_setup (g.wts.getD p.2 [])) := by
  have hwf := graphWf_build nodes edges ws ds 1 1 g hbuild
  have hpmem : p ∈ g.edgeList := List.get?_mem hp
  have hp2 : p.2 < nodes.length := (hwf.adjWf.edgeBound p hpmem).2
  have hsync : (g.adj.nbrs.getD p.2 []).length =
      (g.adj.wts.getD p.2 []).length := hwf.adjWf.lenSync p.2
  have hraw : edgeRawWeights g.adj 1 1 p = g.wts.getD p.2 [] := by
    rw [edgeRawWeights, map_second_order_one]
    apply List.map_snd_zip
    rw [edgeSuccessors, List.length_map, hsync]
  refine ⟨hraw, ?_, ?_⟩
  · rw [hwf.edgesAliasAt e p hp, hraw, alias_setup_normalize _ hsum]
  · rw [hwf.nodesAliasAt p.2 hp2]
    rfl

/-- C4 witness: the theorem applied to the two-node cycle with both bias
weights 1, at edge id 0 `= (0, 1)`. -/
theorem C4_uniform_bias_reduces_witness :
    edgeRawWeights (buildFromIds 2 [(0, 1), (1, 0)] [1, 1] [true, true] 1
        1).adj 1 1 (0, 1) =
      (buildFromIds 2 [(0, 1), (1, 0)] [1, 1] [true, true] 1
        1).wts.getD 1 [] ∧
    (buildFromIds 2 [(0, 1), (1, 0)] [1, 1] [true, true] 1
        1).edgesAlias.get? 0 = some
      (edgeSuccessors (buildFromIds 2 [(0, 1), (1, 0)] [1, 1]
        [true, true] 1 1).adj (0, 1),
       alias_setup ((buildFromIds 2 [(0, 1), (1, 0)] [1, 1] [true, true]
         1 1).wts.getD 1 [])) ∧
    ((buildFromIds 2 [(0, 1), (1, 0)] [1, 1] [true, true] 1
        1).nodesAlias.get? 1).map Prod.snd = some
      (alias_setup ((buildFromIds 2 [(0, 1), (1, 0)] [1, 1] [true, true]
        1 1).wts.getD 1 [])) :=
  C4_uniform_bias_reduces ["a", "b"] [("a", "b"), ("b", "a")] [1, 1]
    [true, true] (buildFromIds 2 [(0, 1), (1, 0)] [1, 1] [true, true] 1 1)
    0 (0, 1) (by decide) (by decide) (by decide)

/-- C6: for every input edge list whose endpoint names resolve —
including lists with duplicate directed edges — construction succeeds
with no error, the edge-id map has at most one entry per ordered pair
(its key list is duplicate-free), and processing a duplicate directed
edge leaves the state unchanged, so the first occurrence's weight and
adjacency entry win. -/
theorem C6_duplicate_edges (nodes : List String)
    (edges : List (String × String)) (ws : List ℚ) (ds : List Bool)
    (rw ew : ℚ) (st : Adj) (u v : Nat) (w : ℚ)
    (hres : ∀ q ∈ edges, (nodesMapping nodes q.1).isSome ∧
      (nodesMapping nodes q.2).isSome)
    (hmem : (u, v) ∈ st.edgeList) :
    (∃ g, Graph.build nodes edges ws ds rw ew = some g ∧
      g.edgeList.Nodup) ∧
    addEdge st u v w true = st := by
  constructor
  · rcases Option.isSome_iff_exists.mp (resolveEdges_isSome nodes edges hres)
      with ⟨es, hes⟩
    refine ⟨buildFromIds nodes.length es ws ds rw ew, ?_, ?_⟩
    · rw [Graph.build, hes]
      rfl
    · have hwf := graphWf_buildFromIds nodes.length es ws ds rw ew
        (resolveEdges_bound nodes edges es hes)
      exact hwf.adjWf.nodupEdges
  · rw [addEdge, if_pos hmem]
    rfl

/-- C6 witness: the theorem applied to an input containing the directed
edge `("a", "b")` twice, and to a state already containing `(0, 1)`. -/
theorem C6_duplicate_edges_witness :
    (∃ g, Graph.build ["a", "b"] [("a", "b"), ("a", "b")] [1, 2]
        [true, true] 1 1 = some g ∧ g.edgeList.Nodup) ∧
    addEdge ⟨[(0, 1)], [[1], []], [[1], []]⟩ 0 1 2 true =
      ⟨[(0, 1)], [[1], []], [[1], []]⟩ :=
  C6_duplicate_edges ["a", "b"] [("a", "b"), ("a", "b")] [1, 2]
    [true, true] 1 1 ⟨[(0, 1)], [[1], []], [[1], []]⟩ 0 1 2 (by decide)
    (by decide)

/-- C7 counterexample: for the input `[("a","b") directed weight 5,
("a","b") undirected weight 1]`, processing the undirected edge `(0, 1)`
leaves the existing forward entry at weight 5 and inserts the reverse at
weight 1: both directions are retrievable but their weights differ, so an
undirected input edge does not always yield equal weights. -/
theorem C7_unequal_weights_counterexample :
    (Graph.build ["a", "b"] [("a", "b"), ("a", "b")] [5, 1] [true, false]
        1 1).map
      (fun g => (has_edge g (0, 1), has_edge g (1, 0),
        weightOf g.adj 0 1, weightOf g.adj 1 0)) =
      some (true, true, 5, 1) ∧ (5 : ℚ) ≠ 1 := by
  constructor
  · decide
  · decide

theorem addEdge_edge_mono (st : Adj) (a b : Nat) (w2 : ℚ) (dir : Bool)
    (p : Nat × Nat) (hp : p ∈ st.edgeList) :
    p ∈ (addEdge st a b w2 dir).edgeList := by
  have h1 : ∀ q ∈ st.edgeList,
      q ∈ (if (a, b) ∈ st.edgeList then st
        else insertEdge st a b w2).edgeList := by
    intro q hq
    by_cases h : (a, b) ∈ st.edgeList
    · rw [if_pos h]; exact hq
    · rw [if_neg h, insertEdge_edgeList]
      exact List.mem_append_left _ hq
  rw [addEdge]
  by_cases hd : dir = true
  · rw [if_pos hd]
    exact h1 p hp
  · rw [if_neg hd]
    by_cases h2 : (b, a) ∈ (if (a, b) ∈ st.edgeList then st
        else insertEdge st a b w2).edgeList
    · rw [if_pos h2]
      exact h1 p hp
    · rw [if_neg h2, insertEdge_edgeList]
      exact List.mem_append_left _ (h1 p hp)

theorem foldl_edge_mono (items : List ((Nat × Nat) × (ℚ × Bool)))
    (st : Adj) (p : Nat × Nat) (hp : p ∈ st.edgeList) :
    p ∈ (items.foldl adjStep st).edgeList := by
  induction items generalizing st with
  | nil => exact hp
  | cons item rest ih =>
    rw [List.foldl_cons]
    exact ih _ (addEdge_edge_mono st _ _ _ _ p hp)

theorem addEdge_undirected_mem (st : Adj) (u v : Nat) (w2 : ℚ) :
    (u, v) ∈ (addEdge st u v w2 false).edgeList ∧
    (v, u) ∈ (addEdge st u v w2 false).edgeList := by
  have h1 : (u, v) ∈ (if (u, v) ∈ st.edgeList then st
      else insertEdge st u v w2).edgeList := by
    by_cases h : (u, v) ∈ st.edgeList
    · rw [if_pos h]; exact h
    · rw [if_neg h, insertEdge_edgeList]
      simp
  rw [addEdge, if_neg (by simp)]
  by_cases h2 : (v, u) ∈ (if (u, v) ∈ st.edgeList then st
      else insertEdge st u v w2).edgeList
  · rw [if_pos h2]
    exact ⟨h1, h2⟩
  · rw [if_neg h2, insertEdge_edgeList]
    exact ⟨List.mem_append_left _ h1, by simp⟩

theorem weightOf_insertEdge_fresh (n : Nat) (st : Adj) (u v : Nat)
    (w2 : ℚ) (hwf : AdjWf n st) (hu : u < n)
    (habs : (u, v) ∉ st.edgeList) :
    weightOf (insertEdge st u v w2) u v = w2 := by
  have hvnotin : v ∉ st.nbrs.getD u [] := by
    intro hmem
    exact habs (hwf.nbrsSound u v hmem).2
  rw [weightOf, insertEdge_nbrs_getD_self st u v w2 (hwf.nbrsLen ▸ hu),
    insertEdge_wts_getD_self st u v w2 (hwf.wtsLen ▸ hu),
    idxOfD_append_self _ v hvnotin, hwf.lenSync u, getD_append_at]

theorem weightOf_insertEdge_stable (n : Nat) (st : Adj) (a b u v : Nat)
    (w2 : ℚ) (hwf : AdjWf n st) (hmem : v ∈ st.nbrs.getD u []) :
    weightOf (insertEdge st a b w2) u v = weightOf st u v ∧
    v ∈ (insertEdge st a b w2).nbrs.getD u [] := by
  by_cases hu : u = a
  · subst hu
    by_cases hlen : u < st.nbrs.length
    · have hlen2 : u < st.wts.length := by
        rw [hwf.wtsLen, ← hwf.nbrsLen]
        exact hlen
      rw [weightOf, weightOf,
        insertEdge_nbrs_getD_self st u b w2 hlen,
        insertEdge_wts_getD_self st u b w2 hlen2,
        idxOfD_append_left _ _ v hmem]
      constructor
      · apply getD_append_left
        rw [← hwf.lenSync u]
        exact idxOfD_lt_length _ v hmem
      · exact List.mem_append_left _ hmem
    · have hset1 : st.nbrs.set u ((st.nbrs.getD u []) ++ [b]) = st.nbrs :=
        List.set_eq_of_length_le (Nat.le_of_not_lt hlen)
      have hlen2 : ¬ u < st.wts.length := by
        rw [hwf.wtsLen, ← hwf.nbrsLen]
        exact hlen
      have hset2 : st.wts.set u ((st.wts.getD u []) ++ [w2]) = st.wts :=
        List.set_eq_of_length_le (Nat.le_of_not_lt hlen2)
      constructor
      · rw [weightOf, weightOf]
        show ((st.wts.set u _).getD u []).getD
          (idxOfD ((st.nbrs.set u _).getD u []) v) 0 = _
        rw [hset1, hset2]
      · show v ∈ (st.nbrs.set u _).getD u []
        rw [hset1]
        exact hmem
  · rw [weightOf, weightOf,
      insertEdge_nbrs_getD_ne st a b w2 u hu,
      insertEdge_wts_getD_ne st a b w2 u hu]
    exact ⟨rfl, hmem⟩

theorem weightOf_addEdge_stable (n : Nat) (st : Adj) (a b u v : Nat)
    (w2 : ℚ) (dir : Bool) (hwf : AdjWf n st) (ha : a < n) (hb : b < n)
    (hmem : v ∈ st.nbrs.getD u []) :
    weightOf (addEdge st a b w2 dir) u v = weightOf st u v ∧
    v ∈ (addEdge st a b w2 dir).nbrs.getD u [] := by
  have step1 : weightOf (if (a, b) ∈ st.edgeList then st
        else insertEdge st a b w2) u v = weightOf st u v ∧
      v ∈ (if (a, b) ∈ st.edgeList then st
        else insertEdge st a b w2).nbrs.getD u [] := by
    by_cases h : (a, b) ∈ st.edgeList
    · rw [if_pos h]
      exact ⟨rfl, hmem⟩
    · rw [if_neg h]
      exact weightOf_insertEdge_stable n st a b u v w2 hwf hmem
  have hwf1 : AdjWf n (if (a, b) ∈ st.edgeList then st
      else insertEdge st a b w2) := by
    by_cases h : (a, b) ∈ st.edgeList
    · rw [if_pos h]; exact hwf
    · rw [if_neg h]; exact adjWf_insertEdge n st a b w2 hwf ha hb h
  rw [addEdge]
  by_cases hd : dir = true
  · rw [if_pos hd]
    exact step1
  · rw [if_neg hd]
    by_cases h2 : (b, a) ∈ (if (a, b) ∈ st.edgeList then st
        else insertEdge st a b w2).edgeList
    · rw [if_pos h2]
      exact step1
    · rw [if_neg h2]
      rcases weightOf_insertEdge_stable n _ b a u v w2 hwf1 step1.2
        with ⟨hw, hm⟩
      rw [hw, step1.1] at *
      exact ⟨by rw [hw, step1.1], hm⟩

theorem weightOf_foldl_stable (n : Nat)
    (items : List ((Nat × Nat) × (ℚ × Bool))) (st : Adj) (u v : Nat)
    (hwf : AdjWf n st)
    (hb : ∀ item ∈ items, item.1.1 < n ∧ item.1.2 < n)
    (hmem : v ∈ st.nbrs.getD u []) :
    weightOf (items.foldl adjStep st) u v = weightOf st u v := by
  induction items generalizing st with
  | nil => rfl
  | cons item rest ih =>
    rcases hb item (List.mem_cons_self item rest) with ⟨h1, h2⟩
    rcases weightOf_addEdge_stable n st item.1.1 item.1.2 u v item.2.1
      item.2.2 hwf h1 h2 hmem with ⟨hw, hm⟩
    rw [List.foldl_cons]
    have hstep : adjStep st item =
        addEdge st item.1.1 item.1.2 item.2.1 item.2.2 := rfl
    rw [hstep, ih _ (adjWf_addEdge n st _ _ _ _ hwf h1 h2)
      (fun it hit => hb it (List.mem_cons_of_mem item hit)) hm]
    exact hw

/-- C7 as amended: for every input edge `(u, v)` with directed flag
false, after construction both `(u, v)` and `(v, u)` are retrievable
edges; they carry the weight `w` of that input edge — hence equal
weights — provided neither direction was already present when the edge
was processed (otherwise the pre-existing entry and its weight are kept);
and processing an edge whose directed flag is true inserts only `(u, v)`,
never `(v, u)`. -/
theorem C7_undirected_expansion_amended (n : Nat) (es : List (Nat × Nat))
    (ws : List ℚ) (ds : List Bool) (rw ew : ℚ)
    (pre post : List ((Nat × Nat) × (ℚ × Bool))) (u v : Nat) (w : ℚ)
    (hsplit : es.zip (ws.zip ds) = pre ++ ((u, v), (w, false)) :: post)
    (hb : ∀ p ∈ es, p.1 < n ∧ p.2 < n) :
    ((u, v) ∈ (buildFromIds n es ws ds rw ew).edgeList ∧
     (v, u) ∈ (buildFromIds n es ws ds rw ew).edgeList) ∧
    (((u, v) ∉ (pre.foldl adjStep (Adj.init n)).edgeList ∧
      (v, u) ∉ (pre.foldl adjStep (Adj.init n)).edgeList) →
      weightOf (buildFromIds n es ws ds rw ew).adj u v = w ∧
      weightOf (buildFromIds n es ws ds rw ew).adj v u = w) ∧
    (∀ st a b w2, addEdge st a b w2 true =
      if (a, b) ∈ st.edgeList then st else insertEdge st a b w2) ∧
    (∀ st a b w2, a ≠ b →
      ((b, a) ∈ (addEdge st a b w2 true).edgeList ↔
        (b, a) ∈ st.edgeList)) := by
  have hitems : ∀ item ∈ pre ++ ((u, v), (w, false)) :: post,
      item.1.1 < n ∧ item.1.2 < n := by
    intro item hit
    rw [← hsplit] at hit
    exact hb item.1 (List.of_mem_zip hit).1
  have huv : u < n ∧ v < n := by
    have := hitems ((u, v), (w, false))
      (List.mem_append_right _ (List.mem_cons_self _ _))
    exact this
  have hadj : (buildFromIds n es ws ds rw ew).adj =
      post.foldl adjStep
        (adjStep (pre.foldl adjStep (Adj.init n)) ((u, v), (w, false))) := by
    show buildAdj n es ws ds = _
    rw [buildAdj, hsplit, List.foldl_append, List.foldl_cons]
  have hedge : (buildFromIds n es ws ds rw ew).edgeList =
      ((buildFromIds n es ws ds rw ew).adj).edgeList := rfl
  have hpreWf : AdjWf n (pre.foldl adjStep (Adj.init n)) :=
    adjWf_foldl n pre (Adj.init n) (adjWf_init n)
      (fun item hit => hitems item (List.mem_append_left _ hit))
  have hpostb : ∀ item ∈ post, item.1.1 < n ∧ item.1.2 < n :=
    fun item hit => hitems item
      (List.mem_append_right _ (List.mem_cons_of_mem _ hit))
  have hstep : adjStep (pre.foldl adjStep (Adj.init n))
      ((u, v), (w, false)) =
      addEdge (pre.foldl adjStep (Adj.init n)) u v w false := rfl
  refine ⟨?_, ?_, ?_, ?_⟩
  · rcases addEdge_undirected_mem (pre.foldl adjStep (Adj.init n)) u v w
      with ⟨h1, h2⟩
    rw [hedge, hadj, hstep]
    exact ⟨foldl_edge_mono post _ _ h1, foldl_edge_mono post _ _ h2⟩
  · rintro ⟨hfor, hrev⟩
    set stPre := pre.foldl adjStep (Adj.init n) with hstPre
    have hst1 : (if (u, v) ∈ stPre.edgeList then stPre
        else insertEdge stPre u v w) = insertEdge stPre u v w :=
      if_neg hfor
    have hw1 : weightOf (insertEdge stPre u v w) u v = w :=
      weightOf_insertEdge_fresh n stPre u v w hpreWf huv.1 hfor
    have hwf1 : AdjWf n (insertEdge stPre u v w) :=
      adjWf_insertEdge n stPre u v w hpreWf huv.1 huv.2 hfor
    have hmem1 : v ∈ (insertEdge stPre u v w).nbrs.getD u [] := by
      rw [insertEdge_nbrs_getD_self stPre u v w (hpreWf.nbrsLen ▸ huv.1)]
      simp
    have hwfMid : AdjWf n (addEdge stPre u v w false) :=
      adjWf_addEdge n stPre u v w false hpreWf huv.1 huv.2
    by_cases hueqv : u = v
    · subst hueqv
      have hmid : addEdge stPre u u w false = insertEdge stPre u u w := by
        rw [addEdge, hst1, if_neg (by simp)]
        rw [if_pos (by rw [insertEdge_edgeList]; simp)]
      rw [hadj, hstep, hmid]
      have := weightOf_foldl_stable n post (insertEdge stPre u u w) u u
        hwf1 hpostb hmem1
      rw [this, hw1]
      exact ⟨rfl, rfl⟩
    · have hrev1 : (u, v) ≠ (v, u) := by
        intro hpair
        exact hueqv (congrArg Prod.fst hpair)
      have hrevabs : (v, u) ∉ (insertEdge stPre u v w).edgeList := by
        rw [insertEdge_edgeList]
        intro hmem
        rcases List.mem_append.mp hmem with h | h
        · exact hrev h
        · exact hrev1 (List.mem_singleton.mp h).symm
      have hmid : addEdge stPre u v w false =
          insertEdge (insertEdge stPre u v w) v u w := by
        rw [addEdge, hst1, if_neg (by simp), if_neg hrevabs]
      have hw2 : weightOf (insertEdge (insertEdge stPre u v w) v u w)
          v u = w :=
        weightOf_insertEdge_fresh n _ v u w hwf1 huv.2 hrevabs
      rcases weightOf_insertEdge_stable n (insertEdge stPre u v w) v u
          u v w hwf1 hmem1 with ⟨hw3, hmem3⟩
      have hmem4 : u ∈ (insertEdge (insertEdge stPre u v w) v u
          w).nbrs.getD v [] := by
        rw [insertEdge_nbrs_getD_self _ v u w (hwf1.nbrsLen ▸ huv.2)]
        simp
      have hwfMid2 : AdjWf n (insertEdge (insertEdge stPre u v w) v u w) :=
        adjWf_insertEdge n _ v u w hwf1 huv.2 huv.1 hrevabs
      rw [hadj, hstep, hmid]
      constructor
      · rw [weightOf_foldl_stable n post _ u v hwfMid2 hpostb hmem3,
          hw3, hw1]
      · rw [weightOf_foldl_stable n post _ v u hwfMid2 hpostb hmem4, hw2]
  · intro st a b w2
    rw [addEdge, if_pos rfl]
  · intro st a b w2 hab
    rw [addEdge, if_pos rfl]
    by_cases h : (a, b) ∈ st.edgeList
    · rw [if_pos h]
    · rw [if_neg h, insertEdge_edgeList]
      constructor
      · intro hmem
        rcases List.mem_append.mp hmem with h1 | h1
        · exact h1
        · rcases List.mem_singleton.mp h1 with hpair
          cases hpair
          exact absurd rfl hab
      · intro hmem
        exact List.mem_append_left _ hmem

/-- C7 witness: the amended theorem applied to the single undirected
input edge `("a", "b")` of weight 3 on two nodes. -/
theorem C7_undirected_expansion_amended_witness :
    ((0, 1) ∈ (buildFromIds 2 [(0, 1)] [3] [false] 1 1).edgeList ∧
     (1, 0) ∈ (buildFromIds 2 [(0, 1)] [3] [false] 1 1).edgeList) ∧
    (((0, 1) ∉ (([] : List ((Nat × Nat) × (ℚ × Bool))).foldl adjStep
        (Adj.init 2)).edgeList ∧
      (1, 0) ∉ (([] : List ((Nat × Nat) × (ℚ × Bool))).foldl adjStep
        (Adj.init 2)).edgeList) →
      weightOf (buildFromIds 2 [(0, 1)] [3] [false] 1 1).adj 0 1 = 3 ∧
      weightOf (buildFromIds 2 [(0, 1)] [3] [false] 1 1).adj 1 0 = 3) ∧
    (∀ st a b w2, addEdge st a b w2 true =
      if (a, b) ∈ st.edgeList then st else insertEdge st a b w2) ∧
    (∀ st a b w2, a ≠ b →
      ((b, a) ∈ (addEdge st a b w2 true).edgeList ↔
        (b, a) ∈ st.edgeList)) :=
  C7_undirected_expansion_amended 2 [(0, 1)] [3] [false] 1 1 [] [] 0 1 3
    (by decide) (by decide)

theorem addEdge_untouched (st : Adj) (a b v : Nat) (w2 : ℚ) (dir : Bool)
    (ha : a ≠ v) (hb : b ≠ v) :
    (addEdge st a b w2 dir).nbrs.getD v [] = st.nbrs.getD v [] ∧
    (addEdge st a b w2 dir).wts.getD v [] = st.wts.getD v [] := by
  have h1 : (if (a, b) ∈ st.edgeList then st
      else insertEdge st a b w2).nbrs.getD v [] = st.nbrs.getD v [] ∧
      (if (a, b) ∈ st.edgeList then st
      else insertEdge st a b w2).wts.getD v [] = st.wts.getD v [] := by
    by_cases h : (a, b) ∈ st.edgeList
    · rw [if_pos h]
      exact ⟨rfl, rfl⟩
    · rw [if_neg h]
      exact ⟨insertEdge_nbrs_getD_ne st a b w2 v (fun hv => ha hv.symm),
        insertEdge_wts_getD_ne st a b w2 v (fun hv => ha hv.symm)⟩
  rw [addEdge]
  by_cases hd : dir = true
  · rw [if_pos hd]
    exact h1
  · rw [if_neg hd]
    by_cases h2 : (b, a) ∈ (if (a, b) ∈ st.edgeList then st
        else insertEdge st a b w2).edgeList
    · rw [if_pos h2]
      exact h1
    · rw [if_neg h2]
      rw [insertEdge_nbrs_getD_ne _ b a w2 v (fun hv => hb hv.symm),
        insertEdge_wts_getD_ne _ b a w2 v (fun hv => hb hv.symm)]
      exact h1

theorem foldl_untouched (items : List ((Nat × Nat) × (ℚ × Bool)))
    (st : Adj) (v : Nat)
    (hv : ∀ item ∈ items, item.1.1 ≠ v ∧ item.1.2 ≠ v) :
    (items.foldl adjStep st).nbrs.getD v [] = st.nbrs.getD v [] ∧
    (items.foldl adjStep st).wts.getD v [] = st.wts.getD v [] := by
  induction items generalizing st with
  | nil => exact ⟨rfl, rfl⟩
  | cons item rest ih =>
    rcases hv item (List.mem_cons_self item rest) with ⟨h1, h2⟩
    rcases addEdge_untouched st item.1.1 item.1.2 v item.2.1 item.2.2 h1 h2
      with ⟨h3, h4⟩
    rcases ih (adjStep st item)
      (fun it hit => hv it (List.mem_cons_of_mem item hit)) with ⟨h5, h6⟩
    have hstep : adjStep st item =
        addEdge st item.1.1 item.1.2 item.2.1 item.2.2 := rfl
    rw [hstep] at h5 h6
    rw [List.foldl_cons, hstep]
    exact ⟨by rw [h5, h3], by rw [h6, h4]⟩

/-- C10: for every construction input, `nodes_number` equals the number
of node names supplied, counting names that appear in no edge; every node
id below that count has an alias-table entry, and a node that no input
edge resolves to keeps an empty adjacency list and the alias entry built
from empty weights. -/
theorem C10_nodes_number_counts_isolated (nodes : List String)
    (edges : List (String × String)) (ws : List ℚ) (ds : List Bool)
    (rw ew : ℚ) (g : Graph)
    (hbuild : Graph.build nodes edges ws ds rw ew = some g) :
    nodes_number g = nodes.length ∧
    (∀ v, v < nodes.length → ∃ entry, g.nodesAlias.get? v = some entry) ∧
    ∀ v, v < nodes.length →
      (∀ q ∈ edges, nodesMapping nodes q.1 ≠ some v ∧
        nodesMapping nodes q.2 ≠ some v) →
      g.nbrs.getD v [] = [] ∧
      g.nodesAlias.get? v = some ([], alias_setup []) := by
  have hwf := graphWf_build nodes edges ws ds rw ew g hbuild
  refine ⟨hwf.nodesCount, ?_, ?_⟩
  · intro v hv
    exact ⟨_, hwf.nodesAliasAt v hv⟩
  · intro v hv hiso
    rw [Graph.build] at hbuild
    rcases hres : resolveEdges nodes edges with _ | es
    · rw [hres] at hbuild
      cases hbuild
    rw [hres] at hbuild
    have hg : buildFromIds nodes.length es ws ds rw ew = g :=
      Option.some.inj hbuild
    have hids : ∀ p ∈ es, p.1 ≠ v ∧ p.2 ≠ v := by
      intro p hp
      rcases resolveEdges_sound nodes edges es hres p hp
        with ⟨q, hq, hq1, hq2⟩
      rcases hiso q hq with ⟨hn1, hn2⟩
      constructor
      · intro he
        exact hn1 (he ▸ hq1)
      · intro he
        exact hn2 (he ▸ hq2)
    have hitems : ∀ item ∈ es.zip (ws.zip ds),
        item.1.1 ≠ v ∧ item.1.2 ≠ v :=
      fun item hit => hids item.1 (List.of_mem_zip hit).1
    have huntouched := foldl_untouched (es.zip (ws.zip ds))
      (Adj.init nodes.length) v hitems
    have hnbrs : g.nbrs.getD v [] = [] := by
      rw [← hg]
      show (buildAdj nodes.length es ws ds).nbrs.getD v [] = []
      rw [buildAdj, huntouched.1]
      exact getD_replicate_default _ _ _
    have hwts : g.wts.getD v [] = [] := by
      rw [← hg]
      show (buildAdj nodes.length es ws ds).wts.getD v [] = []
      rw [buildAdj, huntouched.2]
      exact getD_replicate_default _ _ _
    refine ⟨hnbrs, ?_⟩
    rw [hwf.nodesAliasAt v hv, hnbrs, hwts]

/-- C10 witness: the theorem applied to two named nodes of which the
second appears in no edge. -/
theorem C10_nodes_number_counts_isolated_witness :
    nodes_number (buildFromIds 2 [(0, 0)] [1] [true] 1 1) = 2 ∧
    (∀ v, v < 2 → ∃ entry, (buildFromIds 2 [(0, 0)] [1] [true]
      1 1).nodesAlias.get? v = some entry) ∧
    ∀ v, v < 2 →
      (∀ q ∈ [("a", "a")], nodesMapping ["a", "b"] q.1 ≠ some v ∧
        nodesMapping ["a", "b"] q.2 ≠ some v) →
      (buildFromIds 2 [(0, 0)] [1] [true] 1 1).nbrs.getD v [] = [] ∧
      (buildFromIds 2 [(0, 0)] [1] [true] 1 1).nodesAlias.get? v =
        some ([], alias_setup []) := by
  have h := C10_nodes_number_counts_isolated ["a", "b"] [("a", "a")] [1]
    [true] 1 1 (buildFromIds 2 [(0, 0)] [1] [true] 1 1) (by decide)
  exact h

/-- C1: the code's unnormalized second-order weight vector versus the
spec's node2vec rule.  In the graph `a→b, b→a, b→c` with
`return_weight = 2`, `explore_weight = 1`, for the walk edge
`(0, 1) = (a, b)` the back-step candidate `a` should get multiplier
`return_weight` per the spec, giving `[2, 1]`; the code instead compares
the successor EDGE id with the previous node and tests
`has_edge (edge_id, prev)`, giving `[1, 1]`: the id of edge `(b, a)` is
1, and `(1, 0)` happens to be an edge, so the multiplier-1 branch is
taken. -/
theorem C1_second_order_weights_code_bug :
    (Graph.build ["a", "b", "c"] [("a", "b"), ("b", "a"), ("b", "c")]
        [1, 1, 1] [true, true, true] 2 1).map
      (fun g => (edgeRawWeights g.adj 2 1 (0, 1),
        specSecondOrderWeights g.adj 2 1 (0, 1),
        g.edgeList.get? 0)) =
      some ([1, 1], [2, 1], some (0, 1)) ∧
    ([1, 1] : List ℚ) ≠ [2, 1] := by
  constructor
  · decide
  · decide

/-- C8 counterexample: node `a` (id 0) of the graph `b→a` has no
out-neighbours; with walk length 2 and one repetition the whole
generation call fails (no matrix at all is produced), even though the row
for start node `b` on its own succeeds — the failure is not confined to
the isolated start node's row. -/
theorem C8_whole_batch_fails_counterexample :
    Graph.build ["a", "b"] [("b", "a")] [1] [true] 1 1 =
      some (buildFromIds 2 [(1, 0)] [1] [true] 1 1) ∧
    random_walk (buildFromIds 2 [(1, 0)] [1] [true] 1 1) 2 1
      (fun _ _ => (0, 0)) = none ∧
    singleWalk (buildFromIds 2 [(1, 0)] [1] [true] 1 1) 2 1
      (fun _ => (0, 0)) = some [1, 0] := by
  refine ⟨by decide, by decide, by decide⟩

/-- C8 as amended: when the constructed index contains a start node with
zero out-neighbours and walk length ≥ 2, walk generation fails as a
whole call — the alias draw over that node's empty table fails
explicitly, and no matrix is returned, rather than only that start
node's row failing. -/
theorem C8_isolated_start_amended (nodes : List String)
    (edges : List (String × String)) (ws : List ℚ) (ds : List Bool)
    (rw ew : ℚ) (g : Graph) (v L R : Nat) (σ : Nat → Nat → Nat × ℚ)
    (hbuild : Graph.build nodes edges ws ds rw ew = some g)
    (hv : v < nodes_number g) (hdeg0 : g.nbrs.getD v [] = [])
    (hL : 2 ≤ L) (hR : 1 ≤ R) :
    random_walk g L R σ = none := by
  have hwf := graphWf_build nodes edges ws ds rw ew g hbuild
  have hvn : v < nodes.length := by
    rw [← hwf.nodesCount]
    exact hv
  have hwts : g.wts.getD v [] = [] := by
    apply List.eq_nil_of_length_eq_zero
    show (g.adj.wts.getD v []).length = 0
    rw [← hwf.adjWf.lenSync v]
    show (g.nbrs.getD v []).length = 0
    rw [hdeg0]
    rfl
  have hfail : singleWalk g L v (σ v) = none := by
    have hext : extract_random_node_neighbour g v ((σ v) 1) = none := by
      rw [extract_random_node_neighbour, hwf.nodesAliasAt v hvn]
      simp only [Option.bind_eq_bind, Option.some_bind]
      rw [alias_draw_empty _ _ _ (by rw [hwts]; rfl)]
      rfl
    rw [singleWalk]
    simp only [Option.bind_eq_bind, hext, Option.none_bind]
  have hmod : v % nodes_number g = v := Nat.mod_eq_of_lt hv
  have hmem : v ∈ List.range (R * nodes_number g) := by
    rw [List.mem_range]
    calc v < nodes_number g := hv
      _ = 1 * nodes_number g := by rw [Nat.one_mul]
      _ ≤ R * nodes_number g := Nat.mul_le_mul_right _ hR
  rw [random_walk]
  apply collectRows_none g L σ _ v hmem
  rw [hmod]
  exact hfail

/-- C8 witness: the amended theorem applied to the graph `b→a`, where
node `a` has no out-neighbours. -/
theorem C8_isolated_start_amended_witness :
    random_walk (buildFromIds 2 [(1, 0)] [1] [true] 1 1) 2 1
      (fun _ _ => (1, 1 / 2)) = none :=
  C8_isolated_start_amended ["a", "b"] [("b", "a")] [1] [true] 1 1
    (buildFromIds 2 [(1, 0)] [1] [true] 1 1) 0 2 1 (fun _ _ => (1, 1 / 2))
    (by decide) (by decide) (by decide) (by decide) (by decide)

/-- C9 counterexample: on the 4-node chain `A→B→C→D` with walk length 3
and one repetition, the full generation call produces no matrix at all —
node `D` has no out-neighbours and edge `(C, D)` has no successor edges,
so their rows fail and the whole call fails — hence "the generated walk
starting at A" does not exist in the batch output. -/
theorem C9_chain_batch_fails_counterexample :
    Graph.build ["a", "b", "c", "d"] [("a", "b"), ("b", "c"), ("c", "d")]
      [1, 1, 1] [true, true, true] 1 1 = some gChain ∧
    random_walk gChain 3 1 (fun _ _ => (0, 0)) = none := by
  refine ⟨by decide, by decide⟩

/-- C9 as amended: on the 4-node chain `A→B→C→D` with uniform weight 1
and `return_weight = explore_weight = 1`, the walk row computed for
start node `A` with walk length 3 equals `[A, B, C]` for every possible
draw of the random source (single-neighbour nodes involve no sampling
randomness); the batched call containing rows for `C` and `D` fails as a
whole (see the counterexample). -/
theorem C9_chain_walk_amended (σ : Nat → Nat × ℚ) :
    singleWalk gChain 3 0 σ = some [0, 1, 2] := by
  have h1 : gChain.nodesAlias.get? 0 = some ([1], ⟨[0], [1]⟩) := by decide
  have h2 : gChain.edgesAlias.get? 0 = some ([1], ⟨[0], [1]⟩) := by decide
  have h3 : get_edge_id gChain 0 1 = some 0 := by decide
  have h4 : get_edge_destination gChain 1 = some 2 := by decide
  have hext1 : extract_random_node_neighbour gChain 0 (σ 1) = some 1 := by
    simp only [extract_random_node_neighbour, h1, Option.bind_eq_bind,
      Option.some_bind]
    rw [alias_draw_single 0 1 (σ 1).1 (σ 1).2 rfl]
    rfl
  have hext2 : extract_random_edge_neighbour gChain 0 (σ 2) = some 1 := by
    simp only [extract_random_edge_neighbour, h2, Option.bind_eq_bind,
      Option.some_bind]
    rw [alias_draw_single 0 1 (σ 2).1 (σ 2).2 rfl]
    rfl
  have hwalk : walkFrom gChain σ 0 2 1 = some [2] := by
    rw [walkFrom]
    simp only [Option.bind_eq_bind, hext2, Option.some_bind, h4]
    rfl
  rw [singleWalk]
  simp only [Option.bind_eq_bind, hext1, Option.some_bind, h3,
    Option.some_bind]
  show (walkFrom gChain σ 0 2 (3 - 2)).bind _ = _
  rw [show (3 - 2 : Nat) = 1 from rfl, hwalk]
  rfl

/-- C9 witness: the amended theorem applied to one concrete draw of the
random source. -/
theorem C9_chain_walk_amended_witness :
    singleWalk gChain 3 0 (fun _ => (5, 1 / 3)) = some [0, 1, 2] :=
  C9_chain_walk_amended (fun _ => (5, 1 / 3))

end Embiggen
